import Mathlib

/-!
Shallow embedding of the snap-coin node core (consensus constants, block
metadata store, light-node acceptance, mempool, IBD skip logic, bounded
seen-sets, and the wire message codec), with theorems settling the frozen
claims about the repository.

Hashes, public keys and signatures are modelled as natural numbers: a
`Hash` value stands for `BigUint::from_bytes_be(bytes)` of the 32-byte
array, which is exactly the quantity the source compares for difficulty
checks; equality of the numbers coincides with equality of the byte
arrays.  Machine integers are natural numbers with explicit `% 2 ^ w`
at the points where the source casts.
-/

namespace SnapCoin

/-! ## Constants (src/core/economics.rs) -/

/-- `NANO_TO_SNAP = 10^8`; `INITIAL_REWARD = to_nano(100.0)`. The f64
computation `(100.0 * 100000000.0).round() as u64` is exact: `10^10`. -/
def INITIAL_REWARD : Nat := 10000000000

/-- Halving of reward happens every `HALVING_INTERVAL` blocks. -/
def HALVING_INTERVAL : Nat := 210000

/-- Minimum possible reward. -/
def MIN_REWARD : Nat := 1

/-- Transaction expiration time: `TARGET_TIME * 10 = 200` seconds. -/
def EXPIRATION_TIME : Nat := 200

/-- Genesis previous block hash: the all-zero 32-byte hash, whose
big-endian value is `0`. -/
def GENESIS_PREVIOUS_BLOCK_HASH : Nat := 0

/-- Modelled from the spec: `MAX_TRANSACTIONS_PER_BLOCK = 512`
(`core/block.rs` is not in the source tree). -/
def MAX_TRANSACTIONS_PER_BLOCK : Nat := 512

/-- Modelled from the spec: `MAX_TRANSACTION_IO = 64`
(`core/transaction.rs` is not in the source tree). -/
def MAX_TRANSACTION_IO : Nat := 64

/-- Modelled from the spec: `TIMESTAMP_DRIFT = 120` seconds
(`core/blockchain.rs` is not in the source tree). -/
def TIMESTAMP_DRIFT : Nat := 120

/-- Block reward from `src/core/economics.rs`:
`let halvings = height / HALVING_INTERVAL;
 let reward = INITIAL_REWARD >> halvings;
 reward.max(MIN_REWARD)`.
Rust `>>` on `u64` with a shift amount of 64 or more overflows: it
panics when overflow checks are on and otherwise uses the shift amount
modulo 64.  We embed the documented wrapping (release) semantics, hence
the explicit `% 64` on the shift amount. -/
def get_block_reward (height : Nat) : Nat :=
  let halvings := height / HALVING_INTERVAL
  let reward := Nat.shiftRight INITIAL_REWARD (halvings % 64)
  max reward MIN_REWARD

/-! ## Shared data model

Modelled from the spec (section 3): `core/transaction.rs` and
`core/block.rs` are not in the source tree; the field lists and orders
below follow the spec's data-model section, which the present source
files (`light_node/mod.rs`, `node/mempool.rs`) access consistently. -/

/-- Modelled from the spec: `TransactionInput
{txid: Hash, output_index: u32, output_owner: Public,
 signature: Option<Signature>}`. -/
structure TransactionInput where
  transaction_id : Nat
  output_index : Nat
  output_owner : Nat
  signature : Option Nat
  deriving DecidableEq, Repr

/-- Modelled from the spec: `TransactionOutput
{amount: u64, receiver: Public}`. -/
structure TransactionOutput where
  amount : Nat
  receiver : Nat
  deriving DecidableEq, Repr

/-- Modelled from the spec: `Transaction {timestamp: u64, nonce: u64,
inputs: [Input], outputs: [Output], transaction_id: Option<Hash>}`. -/
structure Transaction where
  timestamp : Nat
  nonce : Nat
  inputs : List TransactionInput
  outputs : List TransactionOutput
  transaction_id : Option Nat
  deriving DecidableEq, Repr

/-- Modelled from the spec: `BlockMetadata {previous_block, merkle_root,
timestamp, nonce, transaction_difficulty, block_difficulty, tx_count,
hash: Option<Hash>}`. -/
structure BlockMetadata where
  previous_block : Nat
  merkle_root : Nat
  timestamp : Nat
  nonce : Nat
  transaction_difficulty : Nat
  block_difficulty : Nat
  tx_count : Nat
  hash : Option Nat
  deriving DecidableEq, Repr

/-- Modelled from the spec: `Block {meta: BlockMetadata,
transactions: [Transaction]}`. -/
structure Block where
  meta : BlockMetadata
  transactions : List Transaction
  deriving DecidableEq, Repr

/-! ## Light-node block metadata store (src/light_node/block_meta_store.rs)

The store's in-memory state: `last_block`, the hash-to-height and
height-to-hash indices, and `height`.  The on-disk copy of each
metadata file is outside the state modelled here (claims about the
store concern the height, last hash, and indices). -/

/-- Indices of `BlockMetaStore`: `by_hash: HashMap<Hash, usize>` and
`by_height: HashMap<usize, Hash>`, modelled as association lists where
an insert shadows an earlier binding. -/
structure BlockMetaIndex where
  by_hash : List (Nat × Nat)
  by_height : List (Nat × Nat)
  deriving DecidableEq, Repr

/-- In-memory state of `BlockMetaStore`. -/
structure BlockMetaStore where
  last_block : Nat
  meta_index : BlockMetaIndex
  height : Nat
  deriving DecidableEq, Repr

/-- `BlockMetaStore::new_empty`: height 0, empty indices, and
`last_block = GENESIS_PREVIOUS_BLOCK_HASH`. -/
def BlockMetaStore.new_empty : BlockMetaStore :=
  { last_block := GENESIS_PREVIOUS_BLOCK_HASH
    meta_index := { by_hash := [], by_height := [] }
    height := 0 }

/-- Outcome of `save_block_meta`: success, the
`IncorrectPreviousBlock` error, or the process abort caused by
`block_meta.hash.expect(..)` when the metadata carries no hash. -/
inductive SaveOutcome where
  | ok
  | errIncorrectPreviousBlock
  | abortMissingHash
  deriving DecidableEq, Repr

/-- `BlockMetaStore::save_block_meta`, returning the outcome together
with the store state after the call.  The source checks chain
continuity first and returns `IncorrectPreviousBlock` before touching
anything; on the success path it writes the metadata file, inserts
both index entries, and sets `height := height + 1` and
`last_block := hash`. -/
def save_block_meta (st : BlockMetaStore) (block_meta : BlockMetadata) :
    SaveOutcome × BlockMetaStore :=
  if block_meta.previous_block ≠ st.last_block then
    (SaveOutcome.errIncorrectPreviousBlock, st)
  else
    match block_meta.hash with
    | none => (SaveOutcome.abortMissingHash, st)
    | some hash =>
      (SaveOutcome.ok,
        { last_block := hash
          meta_index :=
            { by_hash := (hash, st.height) :: st.meta_index.by_hash
              by_height := (st.height, hash) :: st.meta_index.by_height }
          height := st.height + 1 })

/-- `BlockMetaStore::get_last_block_hash`. -/
def BlockMetaStore.get_last_block_hash (st : BlockMetaStore) : Nat :=
  st.last_block

/-! ## Mempool (src/node/mempool.rs)

`pending: HashMap<u64, Vec<Transaction>>` keyed by expiry timestamp,
modelled as an association list with at most one entry per key. -/

/-- The pending map of the mempool. -/
abbrev Pending : Type := List (Nat × List Transaction)

/-- One pass of the expiry watchdog body: the source runs
`pending.remove(&(now))`, i.e. it removes only the bucket whose key is
exactly the current timestamp. -/
def watchdog_tick (now : Nat) (pending : Pending) : Pending :=
  pending.filter fun kv => kv.1 ≠ now

/-- `MemPool::get_mempool`: all transactions of all buckets. -/
def get_mempool (pending : Pending) : List Transaction :=
  (pending.map fun kv => kv.2).foldr (fun a b => a ++ b) []

/-- `MemPool::add_transaction`: key `now + EXPIRATION_TIME`; push onto
the existing bucket if the key is present, insert a fresh singleton
bucket otherwise. -/
def add_transaction (now : Nat) (pending : Pending) (transaction : Transaction) :
    Pending :=
  let expiry := now + EXPIRATION_TIME
  if pending.any fun kv => kv.1 = expiry then
    pending.map fun kv => if kv.1 = expiry then (kv.1, kv.2 ++ [transaction]) else kv
  else
    (expiry, [transaction]) :: pending

/-- `MemPool::validate_transaction`: false when any mempool transaction
has an input with the same `(transaction_id, output_index)` pair as an
input of the candidate. -/
def validate_transaction (pending : Pending) (transaction : Transaction) : Bool :=
  !((get_mempool pending).any fun mempool_transaction =>
      transaction.inputs.any fun i =>
        mempool_transaction.inputs.any fun mi =>
          mi.output_index == i.output_index && mi.transaction_id == i.transaction_id)

/-! ## Bounded seen-sets (src/bounded_set.rs, src/full_node/node_state.rs) -/

/-- `BoundedSet<T>` of src/bounded_set.rs with `T` a transaction id:
a `HashSet` (modelled as a duplicate-free list, membership only) plus
an insertion-order deque. -/
structure BoundedSet where
  capacity : Nat
  set : List Nat
  order : List Nat
  deriving DecidableEq, Repr

/-- `BoundedSet::new`. -/
def BoundedSet.new (capacity : Nat) : BoundedSet :=
  { capacity := capacity, set := [], order := [] }

/-- `BoundedSet::insert`: no-op on duplicates; when the set is exactly
at capacity, pop the front of the order deque and remove that element
from the set; then push the value at the back. -/
def BoundedSet.insert (s : BoundedSet) (value : Nat) : BoundedSet :=
  if s.set.contains value then s
  else
    let s1 :=
      if s.set.length = s.capacity then
        match s.order with
        | [] => s
        | old :: rest => { s with order := rest, set := s.set.erase old }
      else s
    { s1 with order := s1.order ++ [value], set := value :: s1.set }

/-- `BoundedSet::contains`. -/
def BoundedSet.containsId (s : BoundedSet) (value : Nat) : Bool :=
  s.set.contains value

/-- Fold a sequence of insertions over a bounded set. -/
def BoundedSet.insertAll (s : BoundedSet) (l : List Nat) : BoundedSet :=
  l.foldl BoundedSet.insert s

/-- `NodeState::add_last_seen_transaction` of
src/full_node/node_state.rs: skip duplicates, push at the back, and
when the deque then holds more than 500 entries pop the oldest from
the front. -/
def add_last_seen_transaction (transactions : List Nat) (tx_id : Nat) : List Nat :=
  if transactions.contains tx_id then transactions
  else
    let pushed := transactions ++ [tx_id]
    if pushed.length > 500 then pushed.tail else pushed

/-! ## Initial block download (src/full_node/ibd.rs) -/

/-- `IBD_SAFE_SKIP_TX_HASHING` of src/full_node/ibd.rs. -/
def IBD_SAFE_SKIP_TX_HASHING : Nat := 500

/-- The sequence of `skip_tx_hashing` flags passed to `add_block`
while applying `n` fetched blocks in order.  The source keeps
`left = AtomicUsize::new(remote_height)`; for each block it reads
`left_to_add`, passes
`left_to_add > IBD_SAFE_SKIP_TX_HASHING && !full_ibd`, and decrements
`left` when it is positive.  The blocks are applied sequentially
(`try_for_each` after `buffered`), so the counter evolves
deterministically. -/
def ibd_skip_flags : Nat → Nat → Bool → List Bool
  | 0, _, _ => []
  | Nat.succ n, left, full_ibd =>
    (decide (left > IBD_SAFE_SKIP_TX_HASHING) && !full_ibd) ::
      ibd_skip_flags n (if left > 0 then left - 1 else left) full_ibd

/-- Flags produced by `ibd_blockchain` when the peer serves all
heights in `[local_height, remote_height)`, so that
`GetBlockHashesResponse` holds `remote_height - local_height` hashes
and `left` starts at `remote_height`. -/
def ibd_flags (local_height remote_height : Nat) (full_ibd : Bool) : List Bool :=
  ibd_skip_flags (remote_height - local_height) remote_height full_ibd

/-! ## Light node (src/light_node/mod.rs)

The crypto-dependent pieces live in files absent from the source tree
(`core/block.rs`, `core/blockchain.rs`, `core/difficulty.rs`,
`crypto/`); they are modelled from the spec and parametrised over the
hash and signature-verification functions, which the theorems quantify
over or instantiate. -/

/-- Error kinds reachable from the light node's acceptance paths
(union of `BlockchainError` and `TransactionError` variants named in
the source and the spec's error-handling section). -/
inductive Err where
  | InvalidPreviousBlockHash
  | InvalidBlockHash
  | InvalidMerkleRoot
  | InvalidBlockTimestamp
  | ExpiredTransaction
  | InsufficientDifficulty
  | TooManyTransactions
  | InvalidHash
  | InvalidSignature
  | NoInputs
  | TooMuchIo
  | IncompleteTransaction
  deriving DecidableEq, Repr

/-- Modelled from the spec: `DifficultyState` holds the block target
and the transaction target, both 256-bit big-endian upper bounds
(`core/difficulty.rs` is not in the source tree).  The retarget
timestamps play no role in the claims settled here. -/
structure DifficultyState where
  block_difficulty : Nat
  transaction_difficulty : Nat
  deriving DecidableEq, Repr

/-- Modelled from the spec: `DifficultyState::get_block_difficulty`
returns the current block target. -/
def DifficultyState.get_block_difficulty (d : DifficultyState) : Nat :=
  d.block_difficulty

/-- Modelled from the spec: `DifficultyState::get_transaction_difficulty`
returns the current (plain, retargeted) transaction target; it takes no
mempool information. -/
def DifficultyState.get_transaction_difficulty (d : DifficultyState) : Nat :=
  d.transaction_difficulty

/-- Modelled from the spec: `calculate_live_transaction_difficulty`
(`core/difficulty.rs` is not in the source tree): the live transaction
target is `tx_target * (1 - DIFFICULTY_DECAY_PER_TX)^mempool_size` with
`DIFFICULTY_DECAY_PER_TX = 0.005 = 1/200`, clamped to
`[1, 2^256 - 1]`. -/
def calculate_live_transaction_difficulty (target : Nat) (mempool_size : Nat) : Nat :=
  min (max (target * 199 ^ mempool_size / 200 ^ mempool_size) 1) (2 ^ 256 - 1)

/-- The light-node state components read by `accept_block`: the
metadata store and the difficulty state
(src/light_node/light_node_state.rs). -/
structure LightState where
  meta_store : BlockMetaStore
  difficulty_state : DifficultyState
  deriving DecidableEq, Repr

/-- Modelled from the spec: `Block::check_meta` ("make sure merkle
tree and hash"; `core/block.rs` is not in the source tree): the hash
must be present and equal the hash of the canonical metadata encoding,
and the merkle root must equal the root recomputed over the
transaction ids.  `metaHash` and `merkleRoot` stand for the SHA-256
computations. -/
def check_meta (metaHash : BlockMetadata → Nat) (merkleRoot : List Nat → Nat)
    (b : Block) : Except Err Unit :=
  match b.meta.hash with
  | none => Except.error Err.InvalidBlockHash
  | some h =>
    if metaHash b.meta ≠ h then Except.error Err.InvalidBlockHash
    else if merkleRoot (b.transactions.map fun t => t.transaction_id.getD 0) ≠
        b.meta.merkle_root then Except.error Err.InvalidMerkleRoot
    else Except.ok ()

/-- `accept_block` of src/light_node/mod.rs, as a function of the
state it reads.  Check order follows the source: `check_meta`, block
timestamp drift, per-transaction timestamp drift, the comparison of
the meta store's last stored hash against `block_hash` (the new
block's own hash — this is the line the previous-hash claim is about),
the transaction-count bound, and proof of work against
`calculate_block_difficulty(get_block_difficulty(), tx_len)`
(`calcBlockDiff`, modelled as a parameter since `core/difficulty.rs`
is not in the source tree).  The difficulty-state update and the
chain-events broadcast that follow on success do not affect the
returned value. -/
def accept_block (metaHash : BlockMetadata → Nat) (merkleRoot : List Nat → Nat)
    (calcBlockDiff : Nat → Nat → Nat) (now : Nat)
    (st : LightState) (new_block : Block) : Except Err Unit :=
  match check_meta metaHash merkleRoot new_block with
  | Except.error e => Except.error e
  | Except.ok _ =>
    let block_hash := new_block.meta.hash.getD 0
    if new_block.meta.timestamp > now + TIMESTAMP_DRIFT then
      Except.error Err.InvalidBlockTimestamp
    else if new_block.transactions.any fun tx => tx.timestamp > now + TIMESTAMP_DRIFT then
      Except.error Err.ExpiredTransaction
    else if BlockMetaStore.get_last_block_hash st.meta_store ≠ block_hash then
      Except.error Err.InvalidPreviousBlockHash
    else if new_block.transactions.length > MAX_TRANSACTIONS_PER_BLOCK then
      Except.error Err.TooManyTransactions
    else if block_hash >
        calcBlockDiff (DifficultyState.get_block_difficulty st.difficulty_state)
          new_block.transactions.length then
      Except.error Err.InsufficientDifficulty
    else Except.ok ()

/-- `accept_transaction` of src/light_node/mod.rs, returning the
updated `seen_transactions` set on success.  `txHash` stands for the
SHA-256 of `get_tx_hashing_buf` (so `compare_with_data` is
`txHash t = transaction_id`), and `sigValid` for
`signature.validate_with_public(output_owner, input_signing_buf)`.
Check order follows the source: completeness (the id must be present),
the seen-set short circuit (which returns `Ok` and, on a fresh id,
inserts it before validating), timestamp drift, id recomputation,
proof of work against `get_transaction_difficulty()` — the plain
target, with no mempool decay — the IO bound, non-empty inputs, and
input signatures. -/
def accept_transaction (txHash : Transaction → Nat)
    (sigValid : TransactionInput → Transaction → Bool) (now : Nat)
    (dstate : DifficultyState) (seen : BoundedSet) (t : Transaction) :
    Except Err BoundedSet :=
  match t.transaction_id with
  | none => Except.error Err.IncompleteTransaction
  | some transaction_id =>
    if seen.set.contains transaction_id then Except.ok seen
    else
      let seen' := BoundedSet.insert seen transaction_id
      if t.timestamp > now + TIMESTAMP_DRIFT then Except.error Err.ExpiredTransaction
      else if txHash t ≠ transaction_id then Except.error Err.InvalidHash
      else if transaction_id > DifficultyState.get_transaction_difficulty dstate then
        Except.error Err.InsufficientDifficulty
      else if t.inputs.length + t.outputs.length > MAX_TRANSACTION_IO then
        Except.error Err.TooMuchIo
      else if t.inputs.isEmpty then Except.error Err.NoInputs
      else if t.inputs.any fun input => input.signature.isNone || !(sigValid input t) then
        Except.error Err.InvalidSignature
      else Except.ok seen'

/-! ## Wire codec (src/node/message.rs)

Byte-exact model of `Message::serialize` and `Message::from_stream`.
Payloads are bincode 2 standard-configuration encodings: integers
(`u16`/`u32`/`u64`/`usize`) in the variable-length scheme (values below
251 as one byte, then tags 251/252/253 followed by the little-endian
`u16`/`u32`/`u64`), `u8` as a raw byte, enum variants tagged by index,
sequences length-prefixed, options tagged 0/1, fixed arrays as their
raw bytes.  A `Hash`/`Public` value `n` stands for the big-endian
value of its byte array, so its wire bytes are the big-endian digits
of `n`.  A peer-address string is modelled as its byte list. -/

namespace Wire

/-- Little-endian byte rendering of `n` on `w` bytes. -/
def leBytes : Nat → Nat → List Nat
  | 0, _ => []
  | Nat.succ w, n => n % 256 :: leBytes w (n / 256)

/-- Value of a little-endian byte list. -/
def leVal : List Nat → Nat
  | [] => 0
  | b :: rest => b + 256 * leVal rest

/-- Big-endian byte rendering of `n` on `w` bytes. -/
def beBytes (w n : Nat) : List Nat :=
  (leBytes w n).reverse

/-- Value of a big-endian byte list. -/
def beVal (l : List Nat) : Nat :=
  leVal l.reverse

/-- Bincode variable-length encoding of an unsigned integer that fits
in a `u64`. -/
def varint (n : Nat) : List Nat :=
  if n < 251 then [n]
  else if n < 2 ^ 16 then 251 :: leBytes 2 n
  else if n < 2 ^ 32 then 252 :: leBytes 4 n
  else 253 :: leBytes 8 n

/-- Read exactly `k` bytes, as `read_exact` into a `k`-byte buffer. -/
def readBytes (k : Nat) (l : List Nat) : Option (List Nat × List Nat) :=
  if l.length < k then none else some (l.take k, l.drop k)

/-- Decode one variable-length unsigned integer. -/
def decodeVarint : List Nat → Option (Nat × List Nat)
  | [] => none
  | b :: rest =>
    if b < 251 then some (b, rest)
    else if b = 251 then (readBytes 2 rest).map fun p => (leVal p.1, p.2)
    else if b = 252 then (readBytes 4 rest).map fun p => (leVal p.1, p.2)
    else if b = 253 then (readBytes 8 rest).map fun p => (leVal p.1, p.2)
    else none

/-- Decode a fixed big-endian byte array of width `w` (a `Hash`,
`Public` or `Signature`). -/
def decodeBe (w : Nat) (l : List Nat) : Option (Nat × List Nat) :=
  (readBytes w l).map fun p => (beVal p.1, p.2)

/-- Encode an `Option`: tag byte 0 for `None`, 1 followed by the value
for `Some`. -/
def encodeOption (enc : α → List Nat) : Option α → List Nat
  | none => [0]
  | some x => 1 :: enc x

/-- Decode an `Option`. -/
def decodeOption (dec : List Nat → Option (α × List Nat)) :
    List Nat → Option (Option α × List Nat)
  | [] => none
  | 0 :: rest => some (none, rest)
  | 1 :: rest => (dec rest).map fun p => (some p.1, p.2)
  | _ => none

/-- Encode a sequence: length prefix, then the elements in order. -/
def encodeList (enc : α → List Nat) (l : List α) : List Nat :=
  varint l.length ++ (l.map enc).foldr (fun a b => a ++ b) []

/-- Decode exactly `n` consecutive elements. -/
def decodeCount (dec : List Nat → Option (α × List Nat)) :
    Nat → List Nat → Option (List α × List Nat)
  | 0, l => some ([], l)
  | Nat.succ n, l =>
    (dec l).bind fun p =>
      (decodeCount dec n p.2).map fun q => (p.1 :: q.1, q.2)

/-- Decode a length-prefixed sequence. -/
def decodeList (dec : List Nat → Option (α × List Nat)) (l : List Nat) :
    Option (List α × List Nat) :=
  (decodeVarint l).bind fun p => decodeCount dec p.1 p.2

/-- Encode a string (a peer address) as its length-prefixed bytes. -/
def encodeStr (s : List Nat) : List Nat :=
  varint s.length ++ s

/-- Decode a length-prefixed string. -/
def decodeStr (l : List Nat) : Option (List Nat × List Nat) :=
  (decodeVarint l).bind fun p => readBytes p.1 p.2

/-- Encoding of `TransactionInput` in declared field order. -/
def encodeInput (i : TransactionInput) : List Nat :=
  beBytes 32 i.transaction_id ++ varint i.output_index ++
    beBytes 32 i.output_owner ++ encodeOption (beBytes 64) i.signature

/-- Decoding of `TransactionInput`. -/
def decodeInput (l : List Nat) : Option (TransactionInput × List Nat) :=
  (decodeBe 32 l).bind fun p1 =>
    (decodeVarint p1.2).bind fun p2 =>
      (decodeBe 32 p2.2).bind fun p3 =>
        (decodeOption (decodeBe 64) p3.2).map fun p4 =>
          ({ transaction_id := p1.1, output_index := p2.1
             output_owner := p3.1, signature := p4.1 }, p4.2)

/-- Encoding of `TransactionOutput`. -/
def encodeOutput (o : TransactionOutput) : List Nat :=
  varint o.amount ++ beBytes 32 o.receiver

/-- Decoding of `TransactionOutput`. -/
def decodeOutput (l : List Nat) : Option (TransactionOutput × List Nat) :=
  (decodeVarint l).bind fun p1 =>
    (decodeBe 32 p1.2).map fun p2 =>
      ({ amount := p1.1, receiver := p2.1 }, p2.2)

/-- Encoding of `Transaction` in declared field order. -/
def encodeTransaction (t : Transaction) : List Nat :=
  varint t.timestamp ++ varint t.nonce ++
    encodeList encodeInput t.inputs ++ encodeList encodeOutput t.outputs ++
    encodeOption (beBytes 32) t.transaction_id

/-- Decoding of `Transaction`. -/
def decodeTransaction (l : List Nat) : Option (Transaction × List Nat) :=
  (decodeVarint l).bind fun p1 =>
    (decodeVarint p1.2).bind fun p2 =>
      (decodeList decodeInput p2.2).bind fun p3 =>
        (decodeList decodeOutput p3.2).bind fun p4 =>
          (decodeOption (decodeBe 32) p4.2).map fun p5 =>
            ({ timestamp := p1.1, nonce := p2.1, inputs := p3.1
               outputs := p4.1, transaction_id := p5.1 }, p5.2)

/-- Encoding of `BlockMetadata` in declared field order. -/
def encodeMeta (m : BlockMetadata) : List Nat :=
  beBytes 32 m.previous_block ++ beBytes 32 m.merkle_root ++
    varint m.timestamp ++ varint m.nonce ++
    beBytes 32 m.transaction_difficulty ++ beBytes 32 m.block_difficulty ++
    varint m.tx_count ++ encodeOption (beBytes 32) m.hash

/-- Decoding of `BlockMetadata`. -/
def decodeMeta (l : List Nat) : Option (BlockMetadata × List Nat) :=
  (decodeBe 32 l).bind fun p1 =>
    (decodeBe 32 p1.2).bind fun p2 =>
      (decodeVarint p2.2).bind fun p3 =>
        (decodeVarint p3.2).bind fun p4 =>
          (decodeBe 32 p4.2).bind fun p5 =>
            (decodeBe 32 p5.2).bind fun p6 =>
              (decodeVarint p6.2).bind fun p7 =>
                (decodeOption (decodeBe 32) p7.2).map fun p8 =>
                  ({ previous_block := p1.1, merkle_root := p2.1
                     timestamp := p3.1, nonce := p4.1
                     transaction_difficulty := p5.1, block_difficulty := p6.1
                     tx_count := p7.1, hash := p8.1 }, p8.2)

/-- Encoding of `Block`. -/
def encodeBlock (b : Block) : List Nat :=
  encodeMeta b.meta ++ encodeList encodeTransaction b.transactions

/-- Decoding of `Block`. -/
def decodeBlock (l : List Nat) : Option (Block × List Nat) :=
  (decodeMeta l).bind fun p1 =>
    (decodeList decodeTransaction p1.2).map fun p2 =>
      ({ meta := p1.1, transactions := p2.1 }, p2.2)

/-- The `Command` union of src/node/message.rs, variants in
declaration order. -/
inductive Command where
  | Connect
  | AcknowledgeConnection
  | Ping (height : Nat)
  | Pong (height : Nat)
  | GetPeers
  | SendPeers (peers : List (List Nat))
  | NewBlock (block : Block)
  | NewTransaction (transaction : Transaction)
  | GetBlock (block_hash : Nat)
  | GetBlockResponse (block : Option Block)
  | GetBlockHashes (start : Nat) (stop : Nat)
  | GetBlockHashesResponse (block_hashes : List Nat)
  deriving DecidableEq, Repr

/-- Encoding of `Command`: variant index, then the fields in order. -/
def encodeCommand : Command → List Nat
  | Command.Connect => varint 0
  | Command.AcknowledgeConnection => varint 1
  | Command.Ping height => varint 2 ++ varint height
  | Command.Pong height => varint 3 ++ varint height
  | Command.GetPeers => varint 4
  | Command.SendPeers peers => varint 5 ++ encodeList encodeStr peers
  | Command.NewBlock block => varint 6 ++ encodeBlock block
  | Command.NewTransaction transaction => varint 7 ++ encodeTransaction transaction
  | Command.GetBlock block_hash => varint 8 ++ beBytes 32 block_hash
  | Command.GetBlockResponse block => varint 9 ++ encodeOption encodeBlock block
  | Command.GetBlockHashes start stop => varint 10 ++ varint start ++ varint stop
  | Command.GetBlockHashesResponse block_hashes =>
    varint 11 ++ encodeList (beBytes 32) block_hashes

/-- Decoding of `Command`: read the variant index, then dispatch. -/
def decodeCommand (l : List Nat) : Option (Command × List Nat) :=
  (decodeVarint l).bind fun p =>
    if p.1 = 0 then some (Command.Connect, p.2)
    else if p.1 = 1 then some (Command.AcknowledgeConnection, p.2)
    else if p.1 = 2 then (decodeVarint p.2).map fun q => (Command.Ping q.1, q.2)
    else if p.1 = 3 then (decodeVarint p.2).map fun q => (Command.Pong q.1, q.2)
    else if p.1 = 4 then some (Command.GetPeers, p.2)
    else if p.1 = 5 then
      (decodeList decodeStr p.2).map fun q => (Command.SendPeers q.1, q.2)
    else if p.1 = 6 then (decodeBlock p.2).map fun q => (Command.NewBlock q.1, q.2)
    else if p.1 = 7 then
      (decodeTransaction p.2).map fun q => (Command.NewTransaction q.1, q.2)
    else if p.1 = 8 then (decodeBe 32 p.2).map fun q => (Command.GetBlock q.1, q.2)
    else if p.1 = 9 then
      (decodeOption decodeBlock p.2).map fun q => (Command.GetBlockResponse q.1, q.2)
    else if p.1 = 10 then
      (decodeVarint p.2).bind fun q1 =>
        (decodeVarint q1.2).map fun q2 => (Command.GetBlockHashes q1.1 q2.1, q2.2)
    else if p.1 = 11 then
      (decodeList (decodeBe 32) p.2).map fun q => (Command.GetBlockHashesResponse q.1, q.2)
    else none

/-- The framed message: `{version: u16, id: u16, command}`. -/
structure Message where
  version : Nat
  id : Nat
  command : Command
  deriving DecidableEq, Repr

/-- `Message::serialize`: 8-byte header — big-endian `version`, `id`,
and the payload length cast `as u32` — followed by the bincode payload
of the command. -/
def Message.serialize (m : Message) : List Nat :=
  let command_bytes := encodeCommand m.command
  let size := command_bytes.length % 2 ^ 32
  beBytes 2 m.version ++ beBytes 2 m.id ++ beBytes 4 size ++ command_bytes

/-- `Message::from_stream`, over the incoming byte stream: read the
8-byte header with `read_exact` (failing when fewer bytes remain),
take the declared payload size from bytes 4..8 with no upper bound,
`read_exact` that many payload bytes, and bincode-decode the command —
`decode_from_slice(..).0` ignores payload bytes after the decoded
command. -/
def Message.from_stream (input : List Nat) : Option Message :=
  if input.length < 8 then none
  else
    let header := input.take 8
    let version := beVal (header.take 2)
    let id := beVal ((header.drop 2).take 2)
    let size := beVal (header.drop 4)
    let rest := input.drop 8
    if rest.length < size then none
    else
      match decodeCommand (rest.take size) with
      | some (c, _) => some { version := version, id := id, command := c }
      | none => none

end Wire

/-- Well-formedness of a transaction input: every field fits its Rust
type (`Hash`/`Public` are 32 bytes, a signature 64 bytes,
`output_index` a `u32`). -/
def wfInput (i : TransactionInput) : Bool :=
  decide (i.transaction_id < 2 ^ 256) && decide (i.output_index < 2 ^ 32) &&
    decide (i.output_owner < 2 ^ 256) && decide (i.signature.getD 0 < 2 ^ 512)

/-- Well-formedness of a transaction output. -/
def wfOutput (o : TransactionOutput) : Bool :=
  decide (o.amount < 2 ^ 64) && decide (o.receiver < 2 ^ 256)

/-- Well-formedness of a transaction: fields fit their Rust types and
the vector lengths fit a `u64`. -/
def wfTransaction (t : Transaction) : Bool :=
  decide (t.timestamp < 2 ^ 64) && decide (t.nonce < 2 ^ 64) &&
    decide (t.inputs.length < 2 ^ 64) && decide (t.outputs.length < 2 ^ 64) &&
    t.inputs.all wfInput && t.outputs.all wfOutput &&
    decide (t.transaction_id.getD 0 < 2 ^ 256)

/-- Well-formedness of block metadata. -/
def wfMeta (m : BlockMetadata) : Bool :=
  decide (m.previous_block < 2 ^ 256) && decide (m.merkle_root < 2 ^ 256) &&
    decide (m.timestamp < 2 ^ 64) && decide (m.nonce < 2 ^ 64) &&
    decide (m.transaction_difficulty < 2 ^ 256) &&
    decide (m.block_difficulty < 2 ^ 256) && decide (m.tx_count < 2 ^ 32) &&
    decide (m.hash.getD 0 < 2 ^ 256)

/-- Well-formedness of a block. -/
def wfBlock (b : Block) : Bool :=
  wfMeta b.meta && decide (b.transactions.length < 2 ^ 64) &&
    b.transactions.all wfTransaction

/-- Well-formedness of a command: every field of the carried payload
fits its Rust type. -/
def wfCommand : Wire.Command → Bool
  | Wire.Command.Connect => true
  | Wire.Command.AcknowledgeConnection => true
  | Wire.Command.Ping height => decide (height < 2 ^ 64)
  | Wire.Command.Pong height => decide (height < 2 ^ 64)
  | Wire.Command.GetPeers => true
  | Wire.Command.SendPeers peers =>
    decide (peers.length < 2 ^ 64) && peers.all fun s => decide (s.length < 2 ^ 64)
  | Wire.Command.NewBlock block => wfBlock block
  | Wire.Command.NewTransaction transaction => wfTransaction transaction
  | Wire.Command.GetBlock block_hash => decide (block_hash < 2 ^ 256)
  | Wire.Command.GetBlockResponse block =>
    match block with
    | none => true
    | some b => wfBlock b
  | Wire.Command.GetBlockHashes start stop =>
    decide (start < 2 ^ 64) && decide (stop < 2 ^ 64)
  | Wire.Command.GetBlockHashesResponse block_hashes =>
    decide (block_hashes.length < 2 ^ 64) &&
      block_hashes.all fun h => decide (h < 2 ^ 256)

/-- Well-formedness of a message: `version` and `id` fit a `u16` and
the command is well-formed. -/
def wfMessage (m : Wire.Message) : Bool :=
  decide (m.version < 2 ^ 16) && decide (m.id < 2 ^ 16) && wfCommand m.command

/-! ## Invariants used by the claims -/

/-- Two transactions share an input when they reference the same
`(transaction_id, output_index)` pair. -/
def sharesInput (t1 t2 : Transaction) : Prop :=
  ∃ i ∈ t1.inputs, ∃ mi ∈ t2.inputs,
    mi.output_index = i.output_index ∧ mi.transaction_id = i.transaction_id

/-- No two distinct transactions of the pool share an input. -/
def NoSharedInputs (l : List Transaction) : Prop :=
  ∀ a ∈ l, ∀ b ∈ l, sharesInput a b → a = b

/-- Representation invariant of `BoundedSet`, as maintained by the
Rust `HashSet`/`VecDeque` pair: the set and the order deque hold the
same elements without duplicates, and the size is within capacity. -/
def BoundedSetInv (s : BoundedSet) : Prop :=
  s.set.length = s.order.length ∧ s.set.length ≤ s.capacity ∧
    (∀ x, x ∈ s.set ↔ x ∈ s.order) ∧ s.set.Nodup ∧ s.order.Nodup

/-! ## Concrete instances used by individual claims -/

/-- A transaction with one input, used to exercise the mempool
conflict check. -/
def c7_tx : Transaction :=
  { timestamp := 0, nonce := 0
    inputs := [{ transaction_id := 1, output_index := 0, output_owner := 0
                 signature := some 0 }]
    outputs := [], transaction_id := some 1 }

/-- Metadata extending the genesis state: `previous_block` is the
genesis previous hash and the block's own hash is 7. -/
def c1_meta : BlockMetadata :=
  { previous_block := GENESIS_PREVIOUS_BLOCK_HASH, merkle_root := 0
    timestamp := 0, nonce := 0, transaction_difficulty := 0
    block_difficulty := 0, tx_count := 0, hash := some 7 }

/-- An empty block carrying `c1_meta`; the merkle root over zero
leaves is the all-zero hash, matching `merkle_root = 0`. -/
def c1_block : Block :=
  { meta := c1_meta, transactions := [] }

/-- Fresh light-node state: empty meta store (last stored hash is the
genesis previous hash) and a maximal difficulty target so that the
proof-of-work check always passes. -/
def c1_state : LightState :=
  { meta_store := BlockMetaStore.new_empty
    difficulty_state :=
      { block_difficulty := 2 ^ 256 - 1, transaction_difficulty := 2 ^ 256 - 1 } }

/-- The same state with the meta store's last stored hash set to 7,
the candidate block's own hash. -/
def c1_state_tip7 : LightState :=
  { c1_state with
    meta_store := { BlockMetaStore.new_empty with last_block := 7 } }

/-- A transaction with no inputs or outputs, used as bucket content. -/
def c3_tx : Transaction :=
  { timestamp := 0, nonce := 0, inputs := [], outputs := [], transaction_id := none }

/-- A pending map holding one bucket that expired at time 5. -/
def c3_pending : Pending := [(5, [c3_tx])]

/-- A framed stream: version 1, id 2, declared payload size
`0x00800001 = 8 MiB + 1`, and a payload of that many bytes whose first
byte is the `Connect` discriminant (trailing padding is ignored by
`decode_from_slice`). -/
def c4_input : List Nat :=
  [0, 1, 0, 2, 0, 128, 0, 1] ++ 0 :: List.replicate 8388608 0

/-- A small well-formed frame: version 1, id 2, payload size 1, and
payload `[4]`, the `GetPeers` discriminant. -/
def c4_small : List Nat := [0, 1, 0, 2, 0, 0, 0, 1, 4]

/-- Difficulty state whose plain transaction target is 200. -/
def c6_dstate : DifficultyState :=
  { block_difficulty := 2 ^ 256 - 1, transaction_difficulty := 200 }

/-- A transaction whose id (200) equals the plain transaction target
but exceeds the live target for any positive mempool size. -/
def c6_tx : Transaction :=
  { timestamp := 0, nonce := 0
    inputs := [{ transaction_id := 0, output_index := 0, output_owner := 0
                 signature := some 0 }]
    outputs := [], transaction_id := some 200 }

/-- A transaction whose id (201) exceeds the plain transaction
target 200. -/
def c6_tx_hard : Transaction :=
  { c6_tx with transaction_id := some 201 }

/-- Metadata for the meta-store witness: extends the empty store. -/
def c5_meta : BlockMetadata :=
  { previous_block := GENESIS_PREVIOUS_BLOCK_HASH, merkle_root := 3
    timestamp := 4, nonce := 5, transaction_difficulty := 6
    block_difficulty := 7, tx_count := 0, hash := some 9 }

/-- A small message for the round-trip witness. -/
def c8_msg : Wire.Message :=
  { version := 1, id := 2, command := Wire.Command.Ping 3 }

/-- A bounded set at capacity 2 holding `{1, 2}` in insertion order. -/
def c9_full_set : BoundedSet :=
  { capacity := 2, set := [2, 1], order := [1, 2] }

/-! ## Helper lemmas -/

/-- Right shift is antitone in the shift amount. -/
theorem shiftRight_antitone (n : Nat) {a b : Nat} (h : a ≤ b) :
    Nat.shiftRight n b ≤ Nat.shiftRight n a := by
  show n >>> b ≤ n >>> a
  rw [Nat.shiftRight_eq_div_pow, Nat.shiftRight_eq_div_pow]
  exact Nat.div_le_div_left (Nat.pow_le_pow_right (by norm_num) h)
    (Nat.pos_pow_of_pos a (by norm_num))

/-- Unfolding `get_mempool` over a cons cell. -/
theorem get_mempool_cons (kv : Nat × List Transaction) (p : Pending) :
    get_mempool (kv :: p) = kv.2 ++ get_mempool p := rfl

/-- Membership in the flattened mempool. -/
theorem mem_get_mempool {x : Transaction} {p : Pending} :
    x ∈ get_mempool p ↔ ∃ kv, kv ∈ p ∧ x ∈ kv.2 := by
  induction p with
  | nil => simp [get_mempool]
  | cons kv rest ih =>
    rw [get_mempool_cons, List.mem_append, ih]
    constructor
    · rintro (hx | ⟨kv2, hkv2, hx⟩)
      · exact ⟨kv, List.mem_cons_self kv rest, hx⟩
      · exact ⟨kv2, List.mem_cons_of_mem kv hkv2, hx⟩
    · rintro ⟨kv2, hkv2, hx⟩
      rcases List.mem_cons.mp hkv2 with rfl | hkv2
      · exact Or.inl hx
      · exact Or.inr ⟨kv2, hkv2, hx⟩

/-- Membership in the mempool after `add_transaction`: the members
are the old members plus the new transaction. -/
theorem mem_get_mempool_add {now : Nat} {p : Pending} {t x : Transaction} :
    x ∈ get_mempool (add_transaction now p t) ↔ x ∈ get_mempool p ∨ x = t := by
  unfold add_transaction
  by_cases hk : p.any (fun kv => kv.1 = now + EXPIRATION_TIME) = true
  · simp only [hk, if_true]
    rw [mem_get_mempool, mem_get_mempool]
    constructor
    · rintro ⟨kv, hkv, hx⟩
      rcases List.mem_map.mp hkv with ⟨kv0, hkv0, rfl⟩
      by_cases he : kv0.1 = now + EXPIRATION_TIME
      · simp only [he, if_true] at hx
        rcases List.mem_append.mp hx with hx | hx
        · exact Or.inl ⟨kv0, hkv0, hx⟩
        · exact Or.inr (List.mem_singleton.mp hx)
      · simp only [he, if_false] at hx
        exact Or.inl ⟨kv0, hkv0, hx⟩
    · rintro (⟨kv, hkv, hx⟩ | rfl)
      · refine ⟨if kv.1 = now + EXPIRATION_TIME then (kv.1, kv.2 ++ [t]) else kv,
          List.mem_map_of_mem _ hkv, ?_⟩
        by_cases he : kv.1 = now + EXPIRATION_TIME <;>
          simp [he, List.mem_append, hx]
      · rcases List.any_eq_true.mp hk with ⟨kv, hkv, he⟩
        have he' : kv.1 = now + EXPIRATION_TIME := of_decide_eq_true he
        refine ⟨(kv.1, kv.2 ++ [x]), ?_, by simp⟩
        have hmap := List.mem_map_of_mem
          (fun kv => if kv.1 = now + EXPIRATION_TIME then (kv.1, kv.2 ++ [x]) else kv) hkv
        simpa [he'] using hmap
  · simp only [hk, Bool.false_eq_true, if_false]
    rw [get_mempool_cons, List.mem_append, mem_get_mempool]
    simp [or_comm]

/-- Input sharing is symmetric. -/
theorem sharesInput_symm {a b : Transaction} (h : sharesInput a b) :
    sharesInput b a := by
  rcases h with ⟨i, hi, mi, hmi, h1, h2⟩
  exact ⟨mi, hmi, i, hi, h1.symm, h2.symm⟩

/-- The conflict check fails exactly when some mempool transaction
shares an input with the candidate. -/
theorem validate_transaction_eq_false_iff (p : Pending) (t : Transaction) :
    validate_transaction p t = false ↔
      ∃ m ∈ get_mempool p, sharesInput t m := by
  simp [validate_transaction, List.any_eq_true, sharesInput, Bool.and_eq_true,
    beq_iff_eq]

/-! ## C10 — block reward floor and monotonicity -/

/-- C10: counterexample.  The claim asserts `get_block_reward` is
monotonically non-increasing across every halving boundary, but at
height `64 * HALVING_INTERVAL = 13440000` the `u64` shift amount
overflows (the embedding follows the wrapping release semantics; with
debug overflow checks the call panics instead) and the reward jumps
back to `INITIAL_REWARD`. -/
theorem C10_counterexample :
    13439999 ≤ 13440000 ∧
      get_block_reward 13439999 = 1 ∧
      get_block_reward 13440000 = INITIAL_REWARD ∧
      ¬ get_block_reward 13440000 ≤ get_block_reward 13439999 := by
  refine ⟨by norm_num, ?_, ?_, ?_⟩ <;> decide

/-- C10 (amended): `get_block_reward` is at least `MIN_REWARD` at
every height, and it is monotonically non-increasing on all heights
below `64 * HALVING_INTERVAL = 13440000`, the first height at which
the `u64` shift amount overflows. -/
theorem C10_reward_floor_and_monotone (hh h1 h2 : Nat) (hle : h1 ≤ h2)
    (hub : h2 < 64 * HALVING_INTERVAL) :
    MIN_REWARD ≤ get_block_reward hh ∧
      get_block_reward h2 ≤ get_block_reward h1 := by
  constructor
  · simp [get_block_reward]
  · have hd2 : h2 / HALVING_INTERVAL < 64 := by
      apply Nat.div_lt_of_lt_mul
      rwa [Nat.mul_comm] at hub
    have hd1 : h1 / HALVING_INTERVAL < 64 :=
      lt_of_le_of_lt (Nat.div_le_div_right hle) hd2
    simp only [get_block_reward, Nat.mod_eq_of_lt hd1, Nat.mod_eq_of_lt hd2]
    exact max_le_max_right MIN_REWARD
      (shiftRight_antitone INITIAL_REWARD (Nat.div_le_div_right hle))

/-- C10: witness instantiating the amended theorem at concrete
heights. -/
theorem C10_reward_floor_and_monotone_witness :
    MIN_REWARD ≤ get_block_reward 99999999999 ∧
      get_block_reward 210000 ≤ get_block_reward 0 :=
  C10_reward_floor_and_monotone 99999999999 0 210000 (by norm_num)
    (by norm_num [HALVING_INTERVAL])

/-! ## C2 — IBD skip_tx_hashing counter -/

/-- C2: the source initialises the remaining-blocks counter to
`remote_height` instead of `remote_height - local_height`.  With
`local_height = 400`, `remote_height = 700` and the full-IBD flag off,
the first fetched block (at height 400) is only `700 - 400 = 300 ≤ 500`
blocks from the remote tip, yet `add_block` is called with
`skip_tx_hashing = true` because the counter reads 700. -/
theorem C2_ibd_skip_counter_ignores_local_height :
    (ibd_flags 400 700 false).head? = some true ∧
      700 - 400 ≤ IBD_SAFE_SKIP_TX_HASHING := by
  exact ⟨rfl, by decide⟩

/-! ## C3 — mempool expiry watchdog -/

/-- C3: the watchdog body removes only the bucket keyed exactly at the
current timestamp.  A bucket keyed at time 5 survives a tick at time 6
even though its expiry has passed, so an expired transaction remains
in the mempool. -/
theorem C3_watchdog_leaves_expired_bucket :
    watchdog_tick 6 c3_pending = c3_pending ∧
      (5 : Nat) ≤ 6 ∧
      c3_tx ∈ get_mempool (watchdog_tick 6 c3_pending) := by
  refine ⟨rfl, by norm_num, ?_⟩
  simp [watchdog_tick, c3_pending, get_mempool]

/-! ## C1 — light-node previous-hash check -/

/-- C1: `accept_block` of the light node compares the meta store's
last stored hash against the new block's own hash, not against
`meta.previous_block`.  The block `c1_block` has
`previous_block = GENESIS_PREVIOUS_BLOCK_HASH`, which equals the fresh
store's last stored hash, and passes every other check (its hash and
merkle root are consistent under the instantiated hash functions, the
timestamps are in range, it is empty, and the difficulty target is
maximal), yet the call returns `InvalidPreviousBlockHash`; it is
accepted exactly when the store's last stored hash is set to the
block's own hash 7. -/
theorem C1_accept_block_checks_own_hash :
    accept_block (fun _ => 7) (fun _ => 0) (fun d _ => d) 0 c1_state c1_block
        = Except.error Err.InvalidPreviousBlockHash ∧
      c1_block.meta.previous_block
        = BlockMetaStore.get_last_block_hash c1_state.meta_store ∧
      accept_block (fun _ => 7) (fun _ => 0) (fun d _ => d) 0 c1_state_tip7 c1_block
        = Except.ok () :=
  ⟨rfl, rfl, rfl⟩

/-! ## C5 — block meta store append contract -/

/-- C5: `save_block_meta` fails with `IncorrectPreviousBlock` exactly
when the metadata's `previous_block` differs from the store's last
stored hash (`GENESIS_PREVIOUS_BLOCK_HASH` on the empty store); when
it does not succeed the store is unchanged, and on success the height
grows by exactly one and the last stored hash becomes the metadata's
hash. -/
theorem C5_save_block_meta_contract (st : BlockMetaStore) (m : BlockMetadata) :
    ((save_block_meta st m).1 = SaveOutcome.errIncorrectPreviousBlock
        ↔ m.previous_block ≠ BlockMetaStore.get_last_block_hash st) ∧
      ((save_block_meta st m).1 ≠ SaveOutcome.ok → (save_block_meta st m).2 = st) ∧
      ((save_block_meta st m).1 = SaveOutcome.ok →
        (save_block_meta st m).2.height = st.height + 1 ∧
          m.hash = some ((save_block_meta st m).2.last_block)) ∧
      BlockMetaStore.new_empty.last_block = GENESIS_PREVIOUS_BLOCK_HASH ∧
      BlockMetaStore.new_empty.height = 0 := by
  unfold save_block_meta BlockMetaStore.get_last_block_hash
  by_cases hprev : m.previous_block = st.last_block
  · cases hh : m.hash <;>
      simp [hprev, hh, BlockMetaStore.new_empty, GENESIS_PREVIOUS_BLOCK_HASH]
  · simp [hprev, BlockMetaStore.new_empty, GENESIS_PREVIOUS_BLOCK_HASH]

/-- C5: witness appending `c5_meta` to the empty store. -/
theorem C5_save_block_meta_contract_witness :
    (save_block_meta BlockMetaStore.new_empty c5_meta).2.height
        = BlockMetaStore.new_empty.height + 1 ∧
      c5_meta.hash = some ((save_block_meta BlockMetaStore.new_empty c5_meta).2.last_block) :=
  (C5_save_block_meta_contract BlockMetaStore.new_empty c5_meta).2.2.1 rfl

/-! ## C6 — light-node transaction proof-of-work target -/

/-- C6: counterexample.  The light node's `accept_transaction` checks
the id against the plain `get_transaction_difficulty()` target, not
against the live (mempool-decayed) target: with plain target 200, the
transaction `c6_tx` (id 200, passing every other check under the
instantiated hash and signature functions) is accepted although its id
exceeds the live target `calculate_live_transaction_difficulty 200 n =
199 < 200` for every positive mempool size `n` (shown at `n = 1`; the
light node keeps no mempool at all). -/
theorem C6_counterexample :
    accept_transaction (fun _ => 200) (fun _ _ => true) 0 c6_dstate
        (BoundedSet.new 1000) c6_tx
        = Except.ok (BoundedSet.insert (BoundedSet.new 1000) 200) ∧
      calculate_live_transaction_difficulty
          (DifficultyState.get_transaction_difficulty c6_dstate) 1 = 199 ∧
      (199 : Nat) < 200 ∧
      c6_tx.transaction_id = some 200 := by
  refine ⟨rfl, by decide, by norm_num, rfl⟩

/-- C6 (amended): for a fresh, timestamp-valid transaction whose id
recomputes correctly, the light node's `accept_transaction` rejects
with `InsufficientDifficulty` exactly when the id exceeds the plain
retargeted transaction target `get_transaction_difficulty()`; no
mempool-size decay is applied (the light node maintains no
mempool). -/
theorem C6_accept_transaction_plain_target (txHash : Transaction → Nat)
    (sigValid : TransactionInput → Transaction → Bool) (now : Nat)
    (dstate : DifficultyState) (seen : BoundedSet) (t : Transaction) (tid : Nat)
    (hid : t.transaction_id = some tid)
    (hseen : seen.set.contains tid = false)
    (hts : t.timestamp ≤ now + TIMESTAMP_DRIFT)
    (hhash : txHash t = tid) :
    accept_transaction txHash sigValid now dstate seen t
        = Except.error Err.InsufficientDifficulty
      ↔ DifficultyState.get_transaction_difficulty dstate < tid := by
  have hts' : ¬ t.timestamp > now + TIMESTAMP_DRIFT := by omega
  simp only [accept_transaction, hid, hseen, Bool.false_eq_true, if_false,
    hts', hhash, ne_eq, not_true_eq_false]
  split_ifs with h1 h2 h3 h4 <;> simp_all [Nat.lt_iff_add_one_le]

/-- C6: witness for the amended theorem at plain target 200 and
id 201. -/
theorem C6_accept_transaction_plain_target_witness :
    accept_transaction (fun _ => 201) (fun _ _ => true) 0 c6_dstate
        (BoundedSet.new 1000) c6_tx_hard
        = Except.error Err.InsufficientDifficulty
      ↔ DifficultyState.get_transaction_difficulty c6_dstate < 201 :=
  C6_accept_transaction_plain_target (fun _ => 201) (fun _ _ => true) 0 c6_dstate
    (BoundedSet.new 1000) c6_tx_hard 201 rfl rfl (by decide) rfl

/-! ## C7 — mempool double-spend exclusion -/

/-- C7: `validate_transaction` returns false exactly when a mempool
transaction shares an `(transaction_id, output_index)` input pair with
the candidate, and admitting only transactions that pass the check
preserves the invariant that no two distinct mempool transactions
share an input. -/
theorem C7_validate_no_conflict (pending : Pending) (t : Transaction) :
    (validate_transaction pending t = false ↔
        ∃ m ∈ get_mempool pending, sharesInput t m) ∧
      ∀ now : Nat, NoSharedInputs (get_mempool pending) →
        validate_transaction pending t = true →
        NoSharedInputs (get_mempool (add_transaction now pending t)) := by
  refine ⟨validate_transaction_eq_false_iff pending t, ?_⟩
  intro now hInv hok
  have hnoconf : ∀ m ∈ get_mempool pending, ¬ sharesInput t m := by
    intro m hm hsh
    have hfalse : validate_transaction pending t = false :=
      (validate_transaction_eq_false_iff pending t).mpr ⟨m, hm, hsh⟩
    rw [hok] at hfalse
    exact Bool.noConfusion hfalse
  intro a ha b hb hab
  rw [mem_get_mempool_add] at ha hb
  rcases ha with ha | rfl <;> rcases hb with hb | rfl
  · exact hInv a ha b hb hab
  · exact absurd (sharesInput_symm hab) (hnoconf a ha)
  · exact absurd hab (hnoconf b hb)
  · rfl

/-- C7: witness admitting `c7_tx` into the empty mempool. -/
theorem C7_validate_no_conflict_witness :
    (validate_transaction [] c7_tx = false ↔
        ∃ m ∈ get_mempool ([] : Pending), sharesInput c7_tx m) ∧
      NoSharedInputs (get_mempool (add_transaction 0 [] c7_tx)) :=
  ⟨(C7_validate_no_conflict [] c7_tx).1,
    (C7_validate_no_conflict [] c7_tx).2 0
      (by intro a ha; simp [get_mempool] at ha) rfl⟩


/-! ## C9 — bounded seen-transaction sets -/

/-- Step equation: inserting an already-present value is a no-op. -/
theorem boundedSet_insert_of_contains {s : BoundedSet} {v : Nat}
    (hc : s.set.contains v = true) : BoundedSet.insert s v = s := by
  simp only [BoundedSet.insert, hc, if_true]

/-- Step equation: inserting a fresh value while below capacity
appends it with no eviction. -/
theorem boundedSet_insert_of_not_full {s : BoundedSet} {v : Nat}
    (hc : s.set.contains v = false) (hfull : s.set.length ≠ s.capacity) :
    BoundedSet.insert s v
      = { capacity := s.capacity, set := v :: s.set, order := s.order ++ [v] } := by
  simp only [BoundedSet.insert, hc, Bool.false_eq_true, if_false, hfull]

/-- Step equation: inserting a fresh value at capacity evicts the
front of the order deque. -/
theorem boundedSet_insert_of_full {s : BoundedSet} {v old : Nat} {rest : List Nat}
    (hc : s.set.contains v = false) (hfull : s.set.length = s.capacity)
    (horder : s.order = old :: rest) :
    BoundedSet.insert s v
      = { capacity := s.capacity, set := v :: s.set.erase old
          order := rest ++ [v] } := by
  simp only [BoundedSet.insert, hc, Bool.false_eq_true, if_false, hfull,
    eq_self_iff_true, if_true, horder]

/-- `BoundedSet.insert` preserves the representation invariant and the
capacity, for positive capacity. -/
theorem boundedSet_insert_inv {s : BoundedSet} (hcap : 0 < s.capacity)
    (hInv : BoundedSetInv s) (v : Nat) :
    BoundedSetInv (BoundedSet.insert s v) ∧
      (BoundedSet.insert s v).capacity = s.capacity := by
  obtain ⟨hlen, hle, hmem, hnds, hndo⟩ := hInv
  cases hc : s.set.contains v with
  | true =>
    rw [boundedSet_insert_of_contains hc]
    exact ⟨⟨hlen, hle, hmem, hnds, hndo⟩, rfl⟩
  | false =>
    have hvs : v ∉ s.set := by
      intro h
      rw [show s.set.contains v = List.elem v s.set from rfl,
        List.elem_eq_true_of_mem h] at hc
      exact Bool.noConfusion hc
    have hvo : v ∉ s.order := fun h => hvs ((hmem v).mpr h)
    by_cases hfull : s.set.length = s.capacity
    · rcases horder : s.order with _ | ⟨old, rest⟩
      · rw [horder, List.length_nil] at hlen
        omega
      · have hold_mem_set : old ∈ s.set :=
          (hmem old).mpr (by rw [horder]; exact List.mem_cons_self _ _)
        have hvrest : v ∉ rest :=
          fun h => hvo (by rw [horder]; exact List.mem_cons_of_mem _ h)
        have hndo' : rest.Nodup ∧ old ∉ rest := by
          rw [horder, List.nodup_cons] at hndo
          exact ⟨hndo.2, hndo.1⟩
        have herase_len : (s.set.erase old).length = s.set.length - 1 :=
          List.length_erase_of_mem hold_mem_set
        have hsetpos : 0 < s.set.length := List.length_pos_of_mem hold_mem_set
        have hmem_rest : ∀ x, x ∈ rest ↔ x ≠ old ∧ x ∈ s.order := by
          intro x
          constructor
          · intro hx
            exact ⟨fun hx2 => hndo'.2 (hx2 ▸ hx),
              by rw [horder]; exact List.mem_cons_of_mem _ hx⟩
          · rintro ⟨hne, hx⟩
            rw [horder] at hx
            rcases List.mem_cons.mp hx with rfl | hx
            · exact absurd rfl hne
            · exact hx
        rw [boundedSet_insert_of_full hc hfull horder]
        refine ⟨⟨?_, ?_, ?_, ?_, ?_⟩, rfl⟩
        · simp only [List.length_cons, List.length_append, List.length_nil,
            herase_len]
          rw [horder, List.length_cons] at hlen
          omega
        · simp only [List.length_cons, herase_len]
          omega
        · intro x
          simp only [List.mem_cons, List.mem_append, List.mem_singleton,
            List.not_mem_nil, or_false, hnds.mem_erase_iff, hmem_rest x]
          constructor
          · rintro (rfl | ⟨hne, hx⟩)
            · exact Or.inr rfl
            · exact Or.inl ⟨hne, (hmem x).mp hx⟩
          · rintro (⟨hne, hx⟩ | rfl)
            · exact Or.inr ⟨hne, (hmem x).mpr hx⟩
            · exact Or.inl rfl
        · exact List.nodup_cons.mpr
            ⟨fun h => hvs (hnds.mem_erase_iff.mp h).2, hnds.erase old⟩
        · rw [List.nodup_append]
          refine ⟨hndo'.1, List.nodup_singleton v, ?_⟩
          intro x hx hx2
          rw [List.mem_singleton] at hx2
          exact hvrest (hx2 ▸ hx)
    · rw [boundedSet_insert_of_not_full hc hfull]
      refine ⟨⟨?_, ?_, ?_, ?_, ?_⟩, rfl⟩
      · simp only [List.length_cons, List.length_append, List.length_nil]
        omega
      · simp only [List.length_cons]
        omega
      · intro x
        simp only [List.mem_cons, List.mem_append, List.mem_singleton,
          List.not_mem_nil, or_false, hmem x]
        exact or_comm
      · exact List.nodup_cons.mpr ⟨hvs, hnds⟩
      · rw [List.nodup_append]
        refine ⟨hndo, List.nodup_singleton v, ?_⟩
        intro x hx hx2
        rw [List.mem_singleton] at hx2
        exact hvo (hx2 ▸ hx)

/-- Unfolding `insertAll` over a cons cell. -/
theorem boundedSet_insertAll_cons (s : BoundedSet) (v : Nat) (rest : List Nat) :
    BoundedSet.insertAll s (v :: rest)
      = BoundedSet.insertAll (BoundedSet.insert s v) rest := rfl

/-- Any sequence of insertions preserves the invariant and the
capacity. -/
theorem boundedSet_insertAll_inv (l : List Nat) {s : BoundedSet}
    (hcap : 0 < s.capacity) (hInv : BoundedSetInv s) :
    BoundedSetInv (BoundedSet.insertAll s l) ∧
      (BoundedSet.insertAll s l).capacity = s.capacity := by
  induction l generalizing s with
  | nil => exact ⟨hInv, rfl⟩
  | cons v rest ih =>
    obtain ⟨hInv', hcap'⟩ := boundedSet_insert_inv hcap hInv v
    obtain ⟨hInv'', hcap''⟩ := ih (s := BoundedSet.insert s v) (hcap' ▸ hcap) hInv'
    rw [boundedSet_insertAll_cons]
    exact ⟨hInv'', by rw [hcap'', hcap']⟩

/-- The empty bounded set satisfies the invariant. -/
theorem boundedSet_new_inv (capacity : Nat) :
    BoundedSetInv (BoundedSet.new capacity) := by
  refine ⟨rfl, Nat.zero_le _, fun x => ?_, List.nodup_nil, List.nodup_nil⟩
  simp [BoundedSet.new]

/-- One step of the full node's seen-transactions deque keeps its
length at most 500. -/
theorem add_last_seen_len {d : List Nat} (h : d.length ≤ 500) (v : Nat) :
    (add_last_seen_transaction d v).length ≤ 500 := by
  unfold add_last_seen_transaction
  by_cases h1 : d.contains v = true
  · simp only [h1, if_true]
    exact h
  · simp only [h1, Bool.false_eq_true, if_false]
    by_cases h2 : (d ++ [v]).length > 500
    · rw [if_pos h2]
      simp only [List.length_tail, List.length_append, List.length_singleton]
      omega
    · rw [if_neg h2]
      simp only [List.length_append, List.length_singleton] at h2 ⊢
      omega

/-- The full node's seen-transactions deque stays within 500 entries
after any sequence of insertions. -/
theorem foldl_add_last_seen_len (l : List Nat) {d : List Nat}
    (h : d.length ≤ 500) :
    (List.foldl add_last_seen_transaction d l).length ≤ 500 := by
  induction l generalizing d with
  | nil => exact h
  | cons v rest ih => exact ih (add_last_seen_len h v)

/-- A replicated list never contains a different value. -/
theorem contains_replicate_ne {n a b : Nat} (h : b ≠ a) :
    (List.replicate n a).contains b = false := by
  cases hel : (List.replicate n a).contains b with
  | false => rfl
  | true =>
    have hmem : b ∈ List.replicate n a := by
      rw [show (List.replicate n a).contains b
          = List.elem b (List.replicate n a) from rfl] at hel
      exact List.elem_iff.mp hel
    exact absurd (List.mem_replicate.mp hmem).2 h

/-- C9: the light node's seen-transactions `BoundedSet(1000)` holds at
most 1000 entries after any sequence of insertions, evicting the
oldest (the front of the order deque) when a fresh id is inserted at
capacity; the full node's seen deque likewise stays within its bound
of 500 — hence within 1000 — after any sequence of insertions and
evicts the oldest first when a fresh id is inserted at its
capacity. -/
theorem C9_seen_transactions_bounded (l : List Nat) (s : BoundedSet) (v : Nat)
    (d : List Nat) (hInv : BoundedSetInv s) (hfull : s.set.length = s.capacity)
    (hcap : 0 < s.capacity) (hnew : s.set.contains v = false)
    (hd : d.length = 500) (hdnew : d.contains v = false) :
    (BoundedSet.insertAll (BoundedSet.new 1000) l).set.length ≤ 1000 ∧
      (BoundedSet.insertAll (BoundedSet.new 1000) l).order.length ≤ 1000 ∧
      (BoundedSet.insert s v).order = s.order.tail ++ [v] ∧
      (List.foldl add_last_seen_transaction [] l).length ≤ 500 ∧
      add_last_seen_transaction d v = d.tail ++ [v] := by
  obtain ⟨hInv', hcap'⟩ :=
    boundedSet_insertAll_inv l (s := BoundedSet.new 1000) (by decide)
      (boundedSet_new_inv 1000)
  obtain ⟨hlen', hle', -, -, -⟩ := hInv'
  have h1000 : (BoundedSet.new 1000).capacity = 1000 := rfl
  rw [hcap', h1000] at hle'
  refine ⟨hle', by omega, ?_, foldl_add_last_seen_len l (by simp), ?_⟩
  · obtain ⟨hlen, hle, hmem, hnds, hndo⟩ := hInv
    rcases horder : s.order with _ | ⟨old, rest⟩
    · rw [horder, List.length_nil] at hlen
      omega
    · rw [boundedSet_insert_of_full hnew hfull horder]
      rfl
  · unfold add_last_seen_transaction
    simp only [hdnew, Bool.false_eq_true, if_false]
    have hlen2 : (d ++ [v]).length > 500 := by
      simp only [List.length_append, List.length_singleton, hd]
      omega
    rw [if_pos hlen2]
    cases d with
    | nil => simp at hd
    | cons a d' => simp

/-- C9: witness at a full capacity-2 set, the insertion sequence
`[1, 2, 3]`, and a 500-entry deque. -/
theorem C9_seen_transactions_bounded_witness :
    (BoundedSet.insertAll (BoundedSet.new 1000) [1, 2, 3]).set.length ≤ 1000 ∧
      (BoundedSet.insertAll (BoundedSet.new 1000) [1, 2, 3]).order.length ≤ 1000 ∧
      (BoundedSet.insert c9_full_set 3).order = c9_full_set.order.tail ++ [3] ∧
      (List.foldl add_last_seen_transaction [] [1, 2, 3]).length ≤ 500 ∧
      add_last_seen_transaction (List.replicate 500 7) 3
        = (List.replicate 500 7).tail ++ [3] :=
  C9_seen_transactions_bounded [1, 2, 3] c9_full_set 3 (List.replicate 500 7)
    ⟨rfl, by decide, fun x => by simp [c9_full_set]; exact or_comm,
      by decide, by decide⟩
    rfl (by decide) rfl (by rw [List.length_replicate])
    (contains_replicate_ne (by norm_num))

/-! ## Wire codec round-trip lemmas -/

namespace Wire

/-- Powers of 256 as powers of 2 (32 bytes). -/
theorem pow256_32 : (256 : Nat) ^ 32 = 2 ^ 256 := by norm_num

/-- Powers of 256 as powers of 2 (64 bytes). -/
theorem pow256_64 : (256 : Nat) ^ 64 = 2 ^ 512 := by norm_num

/-- `leBytes` always renders exactly `w` bytes. -/
theorem leBytes_length (w : Nat) : ∀ n, (leBytes w n).length = w := by
  induction w with
  | zero => intro n; rfl
  | succ w ih => intro n; simp [leBytes, ih]

/-- `leVal` inverts `leBytes` on values that fit. -/
theorem leVal_leBytes {w : Nat} : ∀ {n : Nat}, n < 256 ^ w → leVal (leBytes w n) = n := by
  induction w with
  | zero =>
    intro n h
    rw [pow_zero] at h
    interval_cases n
    rfl
  | succ w ih =>
    intro n h
    have h2 : n / 256 < 256 ^ w := by
      rw [Nat.div_lt_iff_lt_mul (by norm_num : (0:Nat) < 256)]
      calc n < 256 ^ (w + 1) := h
        _ = 256 ^ w * 256 := by ring
    simp only [leBytes, leVal, ih h2]
    omega

/-- `beBytes` always renders exactly `w` bytes. -/
theorem beBytes_length (w n : Nat) : (beBytes w n).length = w := by
  simp [beBytes, leBytes_length]

/-- `beVal` inverts `beBytes` on values that fit. -/
theorem beVal_beBytes {w n : Nat} (h : n < 256 ^ w) : beVal (beBytes w n) = n := by
  simp [beBytes, beVal, leVal_leBytes h]

/-- `readBytes` splits off an exact-length chunk. -/
theorem readBytes_exact {k : Nat} {a : List Nat} (r : List Nat) (h : a.length = k) :
    readBytes k (a ++ r) = some (a, r) := by
  subst h
  unfold readBytes
  rw [if_neg (by simp), List.take_left, List.drop_left]

/-- `decodeVarint` inverts `varint` on values that fit in a `u64`. -/
theorem decodeVarint_varint {n : Nat} (h : n < 2 ^ 64) (r : List Nat) :
    decodeVarint (varint n ++ r) = some (n, r) := by
  unfold varint
  by_cases h1 : n < 251
  · simp [decodeVarint, h1]
  · by_cases h2 : n < 2 ^ 16
    · have h2' : n < 256 ^ 2 := by norm_num; omega
      simp only [h1, if_false, h2, if_true, List.cons_append, decodeVarint]
      norm_num
      rw [readBytes_exact r (leBytes_length 2 n)]
      simp [leVal_leBytes h2']
    · by_cases h3 : n < 2 ^ 32
      · have h3' : n < 256 ^ 4 := by norm_num; omega
        simp only [h1, h2, if_false, h3, if_true, List.cons_append, decodeVarint]
        norm_num
        rw [readBytes_exact r (leBytes_length 4 n)]
        simp [leVal_leBytes h3']
      · have h4' : n < 256 ^ 8 := by norm_num; omega
        simp only [h1, h2, h3, if_false, List.cons_append, decodeVarint]
        norm_num
        rw [readBytes_exact r (leBytes_length 8 n)]
        simp [leVal_leBytes h4']

/-- `decodeBe` inverts a fixed-width big-endian field. -/
theorem decodeBe_beBytes {w n : Nat} (h : n < 256 ^ w) (r : List Nat) :
    decodeBe w (beBytes w n ++ r) = some (n, r) := by
  unfold decodeBe
  rw [readBytes_exact r (beBytes_length w n)]
  simp [beVal_beBytes h]

/-- `decodeOption` inverts `encodeOption` given an inverse for the
payload. -/
theorem decodeOption_encodeOption {α : Type} {dec : List Nat → Option (α × List Nat)}
    {enc : α → List Nat} {v : Option α} {r : List Nat}
    (h : ∀ x, v = some x → dec (enc x ++ r) = some (x, r)) :
    decodeOption dec (encodeOption enc v ++ r) = some (v, r) := by
  cases v with
  | none => rfl
  | some x =>
    show decodeOption dec (1 :: (enc x ++ r)) = some (some x, r)
    simp [decodeOption, h x rfl]

/-- `decodeCount` inverts the concatenation of encoded elements. -/
theorem decodeCount_encode {α : Type} {dec : List Nat → Option (α × List Nat)}
    {enc : α → List Nat} :
    ∀ (l : List α) (r : List Nat),
      (∀ x ∈ l, ∀ r', dec (enc x ++ r') = some (x, r')) →
      decodeCount dec l.length ((l.map enc).foldr (fun a b => a ++ b) [] ++ r)
        = some (l, r) := by
  intro l
  induction l with
  | nil => intro r h; rfl
  | cons x rest ih =>
    intro r h
    simp only [List.map_cons, List.foldr_cons, List.length_cons, List.append_assoc]
    unfold decodeCount
    rw [h x (List.mem_cons_self x rest)]
    simp only [Option.some_bind]
    rw [ih r fun y hy r' => h y (List.mem_cons_of_mem x hy) r']
    rfl

/-- `decodeList` inverts `encodeList`. -/
theorem decodeList_encodeList {α : Type} {dec : List Nat → Option (α × List Nat)}
    {enc : α → List Nat} (l : List α) (r : List Nat) (hlen : l.length < 2 ^ 64)
    (h : ∀ x ∈ l, ∀ r', dec (enc x ++ r') = some (x, r')) :
    decodeList dec (encodeList enc l ++ r) = some (l, r) := by
  unfold decodeList encodeList
  rw [List.append_assoc, decodeVarint_varint hlen]
  simp only [Option.some_bind]
  exact decodeCount_encode l r h

/-- `decodeStr` inverts `encodeStr`. -/
theorem decodeStr_encodeStr {s : List Nat} (r : List Nat) (h : s.length < 2 ^ 64) :
    decodeStr (encodeStr s ++ r) = some (s, r) := by
  unfold decodeStr encodeStr
  rw [List.append_assoc, decodeVarint_varint h]
  simp only [Option.some_bind]
  exact readBytes_exact r rfl

/-- `decodeInput` inverts `encodeInput` on well-formed inputs. -/
theorem decodeInput_encodeInput {i : TransactionInput} (h : wfInput i = true)
    (r : List Nat) : decodeInput (encodeInput i ++ r) = some (i, r) := by
  have h' := h
  simp only [wfInput, Bool.and_eq_true, decide_eq_true_eq] at h'
  obtain ⟨⟨⟨h1, h2⟩, h3⟩, h4⟩ := h'
  unfold encodeInput decodeInput
  simp only [List.append_assoc]
  rw [decodeBe_beBytes (by rw [pow256_32]; exact h1)]
  simp only [Option.some_bind]
  rw [decodeVarint_varint (by omega)]
  simp only [Option.some_bind]
  rw [decodeBe_beBytes (by rw [pow256_32]; exact h3)]
  simp only [Option.some_bind]
  rw [decodeOption_encodeOption fun x hx => by
    have h4' : x < 2 ^ 512 := by rw [hx, Option.getD_some] at h4; exact h4
    exact decodeBe_beBytes (by rw [pow256_64]; exact h4') r]
  simp

/-- `decodeOutput` inverts `encodeOutput` on well-formed outputs. -/
theorem decodeOutput_encodeOutput {o : TransactionOutput} (h : wfOutput o = true)
    (r : List Nat) : decodeOutput (encodeOutput o ++ r) = some (o, r) := by
  have h' := h
  simp only [wfOutput, Bool.and_eq_true, decide_eq_true_eq] at h'
  obtain ⟨h1, h2⟩ := h'
  unfold encodeOutput decodeOutput
  simp only [List.append_assoc]
  rw [decodeVarint_varint h1]
  simp only [Option.some_bind]
  rw [decodeBe_beBytes (by rw [pow256_32]; exact h2)]
  simp

/-- `decodeTransaction` inverts `encodeTransaction` on well-formed
transactions. -/
theorem decodeTransaction_encodeTransaction {t : Transaction}
    (h : wfTransaction t = true) (r : List Nat) :
    decodeTransaction (encodeTransaction t ++ r) = some (t, r) := by
  have h' := h
  simp only [wfTransaction, Bool.and_eq_true, decide_eq_true_eq,
    List.all_eq_true] at h'
  obtain ⟨⟨⟨⟨⟨⟨hts, hn⟩, hil⟩, hol⟩, hia⟩, hoa⟩, hid⟩ := h'
  unfold encodeTransaction decodeTransaction
  simp only [List.append_assoc]
  rw [decodeVarint_varint hts]
  simp only [Option.some_bind]
  rw [decodeVarint_varint hn]
  simp only [Option.some_bind]
  rw [decodeList_encodeList t.inputs _ hil
    fun x hx r' => decodeInput_encodeInput (hia x hx) r']
  simp only [Option.some_bind]
  rw [decodeList_encodeList t.outputs _ hol
    fun x hx r' => decodeOutput_encodeOutput (hoa x hx) r']
  simp only [Option.some_bind]
  rw [decodeOption_encodeOption fun x hx => by
    have hid' : x < 2 ^ 256 := by rw [hx] at hid; simpa using hid
    exact decodeBe_beBytes (by rw [pow256_32]; exact hid') r]
  simp

/-- `decodeMeta` inverts `encodeMeta` on well-formed metadata. -/
theorem decodeMeta_encodeMeta {m : BlockMetadata} (h : wfMeta m = true)
    (r : List Nat) : decodeMeta (encodeMeta m ++ r) = some (m, r) := by
  have h' := h
  simp only [wfMeta, Bool.and_eq_true, decide_eq_true_eq] at h'
  obtain ⟨⟨⟨⟨⟨⟨⟨h1, h2⟩, h3⟩, h4⟩, h5⟩, h6⟩, h7⟩, h8⟩ := h'
  unfold encodeMeta decodeMeta
  simp only [List.append_assoc]
  rw [decodeBe_beBytes (by rw [pow256_32]; exact h1)]
  simp only [Option.some_bind]
  rw [decodeBe_beBytes (by rw [pow256_32]; exact h2)]
  simp only [Option.some_bind]
  rw [decodeVarint_varint h3]
  simp only [Option.some_bind]
  rw [decodeVarint_varint h4]
  simp only [Option.some_bind]
  rw [decodeBe_beBytes (by rw [pow256_32]; exact h5)]
  simp only [Option.some_bind]
  rw [decodeBe_beBytes (by rw [pow256_32]; exact h6)]
  simp only [Option.some_bind]
  rw [decodeVarint_varint (by omega)]
  simp only [Option.some_bind]
  rw [decodeOption_encodeOption fun x hx => by
    have h8' : x < 2 ^ 256 := by rw [hx] at h8; simpa using h8
    exact decodeBe_beBytes (by rw [pow256_32]; exact h8') r]
  simp

/-- `decodeBlock` inverts `encodeBlock` on well-formed blocks. -/
theorem decodeBlock_encodeBlock {b : Block} (h : wfBlock b = true)
    (r : List Nat) : decodeBlock (encodeBlock b ++ r) = some (b, r) := by
  have h' := h
  simp only [wfBlock, Bool.and_eq_true, decide_eq_true_eq, List.all_eq_true] at h'
  obtain ⟨⟨hm, hl⟩, ht⟩ := h'
  unfold encodeBlock decodeBlock
  simp only [List.append_assoc]
  rw [decodeMeta_encodeMeta hm]
  simp only [Option.some_bind]
  rw [decodeList_encodeList b.transactions _ hl
    fun x hx r' => decodeTransaction_encodeTransaction (ht x hx) r']
  simp

/-- `decodeCommand` inverts `encodeCommand` on well-formed commands. -/
theorem decodeCommand_encodeCommand {c : Command} (h : wfCommand c = true)
    (r : List Nat) : decodeCommand (encodeCommand c ++ r) = some (c, r) := by
  cases c with
  | Connect => rfl
  | AcknowledgeConnection => rfl
  | Ping height =>
    have h' : height < 2 ^ 64 := by
      simpa [wfCommand] using h
    show decodeCommand (varint 2 ++ varint height ++ r) = _
    unfold decodeCommand
    rw [List.append_assoc, decodeVarint_varint (by norm_num)]
    simp only [Option.some_bind]
    norm_num
    rw [decodeVarint_varint h']
  | Pong height =>
    have h' : height < 2 ^ 64 := by
      simpa [wfCommand] using h
    show decodeCommand (varint 3 ++ varint height ++ r) = _
    unfold decodeCommand
    rw [List.append_assoc, decodeVarint_varint (by norm_num)]
    simp only [Option.some_bind]
    norm_num
    rw [decodeVarint_varint h']
  | GetPeers => rfl
  | SendPeers peers =>
    have h' := h
    simp only [wfCommand, Bool.and_eq_true, decide_eq_true_eq,
      List.all_eq_true] at h'
    obtain ⟨hl, hs⟩ := h'
    show decodeCommand (varint 5 ++ encodeList encodeStr peers ++ r) = _
    unfold decodeCommand
    rw [List.append_assoc, decodeVarint_varint (by norm_num)]
    simp only [Option.some_bind]
    norm_num
    rw [decodeList_encodeList peers _ hl
      fun x hx r' => decodeStr_encodeStr r' (hs x hx)]
  | NewBlock block =>
    have h' : wfBlock block = true := by
      simpa [wfCommand] using h
    show decodeCommand (varint 6 ++ encodeBlock block ++ r) = _
    unfold decodeCommand
    rw [List.append_assoc, decodeVarint_varint (by norm_num)]
    simp only [Option.some_bind]
    norm_num
    rw [decodeBlock_encodeBlock h']
  | NewTransaction transaction =>
    have h' : wfTransaction transaction = true := by
      simpa [wfCommand] using h
    show decodeCommand (varint 7 ++ encodeTransaction transaction ++ r) = _
    unfold decodeCommand
    rw [List.append_assoc, decodeVarint_varint (by norm_num)]
    simp only [Option.some_bind]
    norm_num
    rw [decodeTransaction_encodeTransaction h']
  | GetBlock block_hash =>
    have h' : block_hash < 2 ^ 256 := by
      simpa [wfCommand] using h
    show decodeCommand (varint 8 ++ beBytes 32 block_hash ++ r) = _
    unfold decodeCommand
    rw [List.append_assoc, decodeVarint_varint (by norm_num)]
    simp only [Option.some_bind]
    norm_num
    rw [decodeBe_beBytes (by rw [pow256_32]; exact h')]
  | GetBlockResponse block =>
    show decodeCommand (varint 9 ++ encodeOption encodeBlock block ++ r) = _
    unfold decodeCommand
    rw [List.append_assoc, decodeVarint_varint (by norm_num)]
    simp only [Option.some_bind]
    norm_num
    rw [decodeOption_encodeOption fun x hx => by
      have h' : wfBlock x = true := by
        rw [hx] at h
        simpa [wfCommand] using h
      exact decodeBlock_encodeBlock h' r]
  | GetBlockHashes start stop =>
    have h' := h
    simp only [wfCommand, Bool.and_eq_true, decide_eq_true_eq] at h'
    obtain ⟨h1, h2⟩ := h'
    show decodeCommand (varint 10 ++ varint start ++ varint stop ++ r) = _
    unfold decodeCommand
    rw [List.append_assoc, List.append_assoc, decodeVarint_varint (by norm_num)]
    simp only [Option.some_bind]
    norm_num
    rw [decodeVarint_varint h1]
    simp only [Option.some_bind]
    rw [decodeVarint_varint h2]
    rfl
  | GetBlockHashesResponse block_hashes =>
    have h' := h
    simp only [wfCommand, Bool.and_eq_true, decide_eq_true_eq,
      List.all_eq_true] at h'
    obtain ⟨hl, hb⟩ := h'
    show decodeCommand
      (varint 11 ++ encodeList (beBytes 32) block_hashes ++ r) = _
    unfold decodeCommand
    rw [List.append_assoc, decodeVarint_varint (by norm_num)]
    simp only [Option.some_bind]
    norm_num
    rw [decodeList_encodeList block_hashes _ hl
      fun x hx r' => decodeBe_beBytes (by rw [pow256_32]; exact hb x hx) r']

end Wire

/-! ## C8 — message encoding round-trip -/

/-- C8: decoding `Message::serialize(m)` with `Message::from_stream`
returns `m` itself — same version, same id, same command — for every
message whose fields fit their Rust machine types (`u16` version and
id, commands whose integers, hashes, keys and vector lengths are
representable) and whose payload is shorter than `2 ^ 32` bytes (the
header stores the payload length `as u32`). -/
theorem C8_message_roundtrip (m : Wire.Message) (hwf : wfMessage m = true)
    (hsize : (Wire.encodeCommand m.command).length < 2 ^ 32) :
    Wire.Message.from_stream (Wire.Message.serialize m) = some m := by
  have hwf' := hwf
  simp only [wfMessage, Bool.and_eq_true, decide_eq_true_eq] at hwf'
  obtain ⟨⟨hv, hi⟩, hc⟩ := hwf'
  have hmod : (Wire.encodeCommand m.command).length % 2 ^ 32
      = (Wire.encodeCommand m.command).length := Nat.mod_eq_of_lt hsize
  have hser : Wire.Message.serialize m
      = (Wire.beBytes 2 m.version ++ (Wire.beBytes 2 m.id
          ++ Wire.beBytes 4 (Wire.encodeCommand m.command).length))
        ++ Wire.encodeCommand m.command := by
    simp only [Wire.Message.serialize]
    rw [hmod]
    simp [List.append_assoc]
  have hhlen : (Wire.beBytes 2 m.version ++ (Wire.beBytes 2 m.id
      ++ Wire.beBytes 4 (Wire.encodeCommand m.command).length)).length = 8 := by
    simp [Wire.beBytes_length]
  have hdrop4 : (Wire.beBytes 2 m.version ++ (Wire.beBytes 2 m.id
      ++ Wire.beBytes 4 (Wire.encodeCommand m.command).length)).drop 4
      = Wire.beBytes 4 (Wire.encodeCommand m.command).length := by
    rw [← List.append_assoc]
    exact List.drop_left' (by simp [Wire.beBytes_length])
  have hdec : Wire.decodeCommand (Wire.encodeCommand m.command)
      = some (m.command, []) := by
    have hd := Wire.decodeCommand_encodeCommand hc []
    rwa [List.append_nil] at hd
  rw [hser]
  simp only [Wire.Message.from_stream]
  rw [List.take_left' hhlen, List.drop_left' hhlen]
  rw [List.take_left' (Wire.beBytes_length 2 m.version),
    List.drop_left' (Wire.beBytes_length 2 m.version),
    List.take_left' (Wire.beBytes_length 2 m.id), hdrop4]
  rw [Wire.beVal_beBytes (show m.version < 256 ^ 2 by
      rw [show (256 : Nat) ^ 2 = 2 ^ 16 by norm_num]; exact hv),
    Wire.beVal_beBytes (show m.id < 256 ^ 2 by
      rw [show (256 : Nat) ^ 2 = 2 ^ 16 by norm_num]; exact hi),
    Wire.beVal_beBytes (show (Wire.encodeCommand m.command).length < 256 ^ 4 by
      rw [show (256 : Nat) ^ 4 = 2 ^ 32 by norm_num]; exact hsize)]
  rw [if_neg (by rw [List.length_append, hhlen]; omega),
    if_neg (lt_irrefl (Wire.encodeCommand m.command).length),
    List.take_length, hdec]

/-- C8: witness decoding the serialization of a small `Ping`
message. -/
theorem C8_message_roundtrip_witness :
    Wire.Message.from_stream (Wire.Message.serialize c8_msg) = some c8_msg :=
  C8_message_roundtrip c8_msg (by decide) (by decide)

/-! ## C4 — no payload size bound in from_stream -/

/-- Characterisation of a successful `from_stream` read: whenever the
stream holds the 8-byte header and at least the declared number of
payload bytes, and the payload prefix decodes to a command, the read
succeeds — the declared size is never compared against any maximum. -/
theorem from_stream_reads (input : List Nat) (c : Wire.Command)
    (rest2 : List Nat) (h8 : 8 ≤ input.length)
    (hsz : Wire.beVal ((input.take 8).drop 4) ≤ (input.drop 8).length)
    (hdec : Wire.decodeCommand
        ((input.drop 8).take (Wire.beVal ((input.take 8).drop 4)))
        = some (c, rest2)) :
    Wire.Message.from_stream input
      = some { version := Wire.beVal ((input.take 8).take 2)
               id := Wire.beVal (((input.take 8).drop 2).take 2)
               command := c } := by
  simp only [Wire.Message.from_stream]
  rw [if_neg (by omega), if_neg (by omega), hdec]

/-- C4: counterexample.  `Message::from_stream` enforces no
`MAX_MESSAGE_BYTES` bound: a frame declaring a payload of
`0x00800001 = 8 MiB + 1` bytes is read in full and decoded
successfully (the payload's first byte is the `Connect` discriminant
and `decode_from_slice` ignores the trailing padding), instead of the
connection being closed. -/
theorem C4_counterexample :
    Wire.Message.from_stream c4_input
        = some { version := 1, id := 2, command := Wire.Command.Connect } ∧
      8 * 1024 * 1024 < Wire.beVal ((c4_input.take 8).drop 4) := by
  have hhdr : ([0, 1, 0, 2, 0, 128, 0, 1] : List Nat).length = 8 := rfl
  have htail : ((0 : Nat) :: List.replicate 8388608 0).length = 8388609 := by
    rw [List.length_cons, List.length_replicate]
  have htake8 : c4_input.take 8 = [0, 1, 0, 2, 0, 128, 0, 1] :=
    List.take_left' hhdr
  have hdrop8 : c4_input.drop 8 = 0 :: List.replicate 8388608 0 :=
    List.drop_left' hhdr
  have hsizeval : Wire.beVal ((c4_input.take 8).drop 4) = 8388609 := by
    rw [htake8]
    decide
  have h8 : 8 ≤ c4_input.length := by
    show 8 ≤ (([0, 1, 0, 2, 0, 128, 0, 1] : List Nat)
      ++ (0 :: List.replicate 8388608 0)).length
    rw [List.length_append, hhdr, htail]
    norm_num
  have hsz : Wire.beVal ((c4_input.take 8).drop 4) ≤ (c4_input.drop 8).length := by
    rw [hsizeval, hdrop8, htail]
  have hdec : Wire.decodeCommand
      ((c4_input.drop 8).take (Wire.beVal ((c4_input.take 8).drop 4)))
      = some (Wire.Command.Connect, List.replicate 8388608 0) := by
    rw [hdrop8, hsizeval, List.take_of_length_le (le_of_eq htail)]
    rfl
  constructor
  · rw [from_stream_reads c4_input Wire.Command.Connect
      (List.replicate 8388608 0) h8 hsz hdec, htake8]
    decide
  · rw [hsizeval]
    norm_num

/-- C4 (amended): `Message::from_stream` imposes no upper bound on the
declared payload size: whenever the stream holds the 8-byte header and
at least the declared number of payload bytes, and the payload prefix
decodes to a command, the read succeeds — whatever the declared size
(any `u32` value, well beyond 8 MiB included). -/
theorem C4_no_payload_bound (input : List Nat) (c : Wire.Command)
    (rest2 : List Nat) (h8 : 8 ≤ input.length)
    (hsz : Wire.beVal ((input.take 8).drop 4) ≤ (input.drop 8).length)
    (hdec : Wire.decodeCommand
        ((input.drop 8).take (Wire.beVal ((input.take 8).drop 4)))
        = some (c, rest2)) :
    Wire.Message.from_stream input
      = some { version := Wire.beVal ((input.take 8).take 2)
               id := Wire.beVal (((input.take 8).drop 2).take 2)
               command := c } :=
  from_stream_reads input c rest2 h8 hsz hdec

/-- C4: witness reading a small well-formed frame through the amended
theorem. -/
theorem C4_no_payload_bound_witness :
    Wire.Message.from_stream c4_small
      = some { version := Wire.beVal ((c4_small.take 8).take 2)
               id := Wire.beVal (((c4_small.take 8).drop 2).take 2)
               command := Wire.Command.GetPeers } :=
  C4_no_payload_bound c4_small Wire.Command.GetPeers [] (by decide) (by decide)
    (by decide)

end SnapCoin
